import Mathlib

/-!
# Verification of the WorkOS Go audit-log event model

Shallow embedding of `src/auditlog/event.go` (package `auditlog`).

Go maps `map[string]interface{}` are modelled as association lists with
distinct keys, built exclusively through `mapSet` (the embedding of the Go
map assignment `m[k] = v`, which replaces the binding when the key is
present and appends it otherwise).  `interface{}` metadata values are
modelled by the inductive `MValue`: string and integer literals, values
implementing the `Auditable` interface (carrying the results of their two
accessors), and a value that `encoding/json` cannot marshal (such as a
channel or a function value).

Nondeterministic environment inputs of the Go code (`os.Hostname()`,
`time.Now()`, the `globalMetadata` package variable, and the
`client.PublishEvent` transport) are passed as explicit parameters.
-/

namespace Auditlog

/-- A Go `interface{}` value stored in event metadata.  `auditable name id`
stands for a value implementing the `Auditable` interface whose
`ToAuditableName`/`ToAuditableID` accessors return `name`/`id`.
`nonEncodable` stands for a value `encoding/json.Marshal` rejects. -/
inductive MValue where
  | str : String → MValue
  | int : Int → MValue
  | auditable (name id : String) : MValue
  | nonEncodable : MValue
deriving DecidableEq, Repr

/-- A Go `map[string]interface{}`: an association list with distinct keys. -/
abbrev Metadata := List (String × MValue)

/-- Go map assignment `m[k] = v`: replace the binding of `k` when present,
append it otherwise. -/
def mapSet : Metadata → String → MValue → Metadata
  | [], k, v => [(k, v)]
  | (k', v') :: rest, k, v =>
      if k' = k then (k, v) :: rest else (k', v') :: mapSet rest k v

/-- Go map lookup `m[k]`. -/
def mapGet : Metadata → String → Option MValue
  | [], _ => none
  | (k', v') :: rest, k => if k' = k then some v' else mapGet rest k

/-- The `Auditable` interface of `event.go`: a value exposing
`ToAuditableName() string` and `ToAuditableID() string`. -/
structure Auditable where
  ToAuditableName : String
  ToAuditableID : String
deriving DecidableEq, Repr

/-- `ActionType` constant `Create = "C"`. -/
def Create : String := "C"

/-- `ActionType` constant `Read = "R"`. -/
def Read : String := "R"

/-- `ActionType` constant `Update = "U"`. -/
def Update : String := "U"

/-- `ActionType` constant `Delete = "D"`. -/
def Delete : String := "D"

/-- The `Event` struct of `event.go`.  `Action` and `ActionType` are Go
string types; `time.Time` is modelled as an abstract instant (`Nat`). -/
structure Event where
  Group : String
  Action : String
  ActionType : String
  ActorName : String
  ActorID : String
  Location : String
  OccuredAt : Nat
  TargetName : String
  TargetID : String
  Metadata : Metadata
deriving DecidableEq, Repr

/-- The zero value `Event{}` returned by `NewEventWithMetadata` on error:
every string field empty, zero timestamp, nil metadata map. -/
def zeroEvent : Event :=
  { Group := "", Action := "", ActionType := "", ActorName := "", ActorID := ""
    Location := "", OccuredAt := 0, TargetName := "", TargetID := "", Metadata := [] }

/-- `NewEvent`: stamps the current time, uses the local hostname as the
location (empty string when `os.Hostname()` fails), empty metadata.
`hostname` is the result of `os.Hostname()` (`none` on failure) and `now`
the value of `time.Now().UTC()`. -/
def NewEvent (action actionType : String) (hostname : Option String) (now : Nat) : Event :=
  { Group := "", Action := action, ActionType := actionType, ActorName := "", ActorID := ""
    Location := hostname.getD "", OccuredAt := now
    TargetName := "", TargetID := "", Metadata := [] }

/-- `func (e *Event) SetLocation(location string)`. -/
def Event.SetLocation (e : Event) (location : String) : Event :=
  { e with Location := location }

/-- `func (e *Event) SetGroup(group Auditable)`. -/
def Event.SetGroup (e : Event) (group : Auditable) : Event :=
  { e with Group := group.ToAuditableID }

/-- `func (e *Event) SetActor(actor Auditable)`. -/
def Event.SetActor (e : Event) (actor : Auditable) : Event :=
  { e with ActorName := actor.ToAuditableName, ActorID := actor.ToAuditableID }

/-- `func (e *Event) SetTarget(target Auditable)`. -/
def Event.SetTarget (e : Event) (target : Auditable) : Event :=
  { e with TargetName := target.ToAuditableName, TargetID := target.ToAuditableID }

/-- The capacity error string of `addMetadata`. -/
def capacityError : String :=
  "attempted to add over 500 properties to metadata, ignoring"

/-- Lower-case `func (e Event) addMetadata(key string, value interface{}) error`,
expressed on the metadata map it mutates.  Rejects the addition when the map
already holds 500 entries; expands an `Auditable` value into the
`<key>_name` and `<key>_id` bindings; otherwise writes the literal value. -/
def addMetadata (m : Metadata) (key : String) (value : MValue) : Except String Metadata :=
  if m.length ≥ 500 then
    .error capacityError
  else
    match value with
    | .auditable name id =>
        .ok (mapSet (mapSet m (key ++ "_name") (.str name)) (key ++ "_id") (.str id))
    | v => .ok (mapSet m key v)

/-- `func (e Event) AddMetadata(metadata map[string]interface{}) error`:
iterates the batch, stopping at the first error.  The Go receiver copies
the `Event` but shares the metadata map, so entries applied before the
error remain applied; the returned map reflects that shared state. -/
def AddMetadataM : Metadata → List (String × MValue) → Metadata × Option String
  | m, [] => (m, none)
  | m, (k, v) :: rest =>
      match addMetadata m k v with
      | .error err => (m, some err)
      | .ok m' => AddMetadataM m' rest

/-- `Event.AddMetadata` at the event level: the event's (shared) metadata
map after the call, together with the returned error. -/
def Event.AddMetadata (e : Event) (batch : List (String × MValue)) : Event × Option String :=
  let r := AddMetadataM e.Metadata batch
  ({ e with Metadata := r.1 }, r.2)

/-- The HTTP request context consumed by `NewEventWithHTTP`: remote
address, method, URL, and the `User-Agent` / `X-Request-ID` headers as
returned by `Header.Get` (the empty string when the header is absent). -/
structure Request where
  RemoteAddr : String
  Method : String
  URL : String
  userAgent : String
  requestID : String
deriving DecidableEq, Repr

/-- `NewEventWithHTTP`: builds a `NewEvent`, overwrites the location with
`r.RemoteAddr`, seeds metadata with `http_method` and `request_url`, adds
`user_agent` / `request_id` only when the header is non-empty, and applies
the batch through `AddMetadata` (whose error Go discards here). -/
def NewEventWithHTTP (action actionType : String) (r : Request)
    (hostname : Option String) (now : Nat) : Event :=
  let event := NewEvent action actionType hostname now
  let event := event.SetLocation r.RemoteAddr
  let metadata : List (String × MValue) :=
    [("http_method", .str r.Method), ("request_url", .str r.URL)]
  let metadata := if r.userAgent ≠ "" then metadata ++ [("user_agent", .str r.userAgent)] else metadata
  let metadata := if r.requestID ≠ "" then metadata ++ [("request_id", .str r.requestID)] else metadata
  (event.AddMetadata metadata).1

/-- `NewEventWithMetadata`: builds a `NewEvent`, applies the initial batch,
and on error returns the zero value `Event{}` together with the error. -/
def NewEventWithMetadata (action actionType : String) (metadata : List (String × MValue))
    (hostname : Option String) (now : Nat) : Event × Option String :=
  let event := NewEvent action actionType hostname now
  let r := event.AddMetadata metadata
  match r.2 with
  | some err => (zeroEvent, some err)
  | none => (r.1, none)

/-- JSON values produced by `encoding/json.Marshal`. -/
inductive Json where
  | str : String → Json
  | int : Int → Json
  | obj : List (String × Json) → Json
deriving Repr

/-- Marshalling of a metadata value; fails (returns `none`) exactly on a
value `encoding/json` cannot encode.  A raw `Auditable` struct value
marshals generically as a JSON object (its concrete fields are irrelevant
to the properties below). -/
def encodeValue : MValue → Option Json
  | .str s => some (.str s)
  | .int n => some (.int n)
  | .auditable name id => some (.obj [("name", .str name), ("id", .str id)])
  | .nonEncodable => none

/-- Marshalling of the metadata map: fails as soon as one value fails. -/
def encodeMetadata : Metadata → Option (List (String × Json))
  | [] => some []
  | (k, v) :: rest => do
      let jv ← encodeValue v
      let jrest ← encodeMetadata rest
      pure ((k, jv) :: jrest)

/-- The RFC3339 rendering of the timestamp (its exact text is irrelevant
to the properties below). -/
def encodeTime (t : Nat) : Json := .str (Nat.repr t)

/-- The serialization error string of `encoding/json`. -/
def serializationError : String := "json: unsupported type"

/-- `json.Marshal(e)`: one JSON object whose field names and order come
from the struct tags of `Event`, failing exactly when some metadata value
is non-encodable. -/
def marshalEvent (e : Event) : Except String Json :=
  match encodeMetadata e.Metadata with
  | none => .error serializationError
  | some md =>
      .ok (.obj
        [ ("group", .str e.Group)
        , ("action", .str e.Action)
        , ("action_type", .str e.ActionType)
        , ("actor_name", .str e.ActorName)
        , ("actor_id", .str e.ActorID)
        , ("location", .str e.Location)
        , ("occured_at", encodeTime e.OccuredAt)
        , ("target_name", .str e.TargetName)
        , ("target_id", .str e.TargetID)
        , ("metadata", .obj md) ])

/-- The merge loop at the top of `Publish`:
`for k, v := range globalMetadata { e.Metadata[k] = v }`. -/
def mergeGlobals (m g : Metadata) : Metadata :=
  g.foldl (fun acc kv => mapSet acc kv.1 kv.2) m

/-- `func (e Event) Publish() error`, parameterized by the package-level
`globalMetadata` and by the `client.PublishEvent` transport (which returns
`none` on success).  The first component is the event as the caller sees
it afterwards: the receiver is a value copy, but the metadata map is
shared, so the merged entries persist in the caller's event. -/
def Publish (g : Metadata) (transport : Json → Option String) (e : Event) :
    Event × Option String :=
  let e' := { e with Metadata := mergeGlobals e.Metadata g }
  match marshalEvent e' with
  | .error err => (e', some err)
  | .ok body => (e', transport body)

/-- The serialization step of `Publish`: the `json.Marshal` result on the
event after the global-metadata merge. -/
def publishBody (g : Metadata) (e : Event) : Except String Json :=
  marshalEvent { e with Metadata := mergeGlobals e.Metadata g }

/-! ## Auxiliary definitions for the statements -/

/-- The keys of a metadata map. -/
def keys (m : Metadata) : List String := m.map Prod.fst

/-- A metadata value that does not implement the `Auditable` interface. -/
def isLiteral : MValue → Bool
  | .auditable _ _ => false
  | _ => true

/-- Association-list lookup in a JSON object body. -/
def jsonGet : List (String × Json) → String → Option Json
  | [], _ => none
  | (k', v) :: rest, k => if k' = k then some v else jsonGet rest k

/-- The field names of a serialized JSON object, in order. -/
def Json.fieldNames : Json → List String
  | .obj fields => fields.map Prod.fst
  | _ => []

/-- Field lookup in a serialized JSON object. -/
def Json.getField : Json → String → Option Json
  | .obj fields, k => jsonGet fields k
  | _, _ => none

/-- `akey i` is the string of `i` letters `a`: a supply of pairwise
distinct metadata keys for concrete test inputs. -/
def akey (i : Nat) : String := String.mk (List.replicate i 'a')

/-- A batch of `n` literal metadata entries with pairwise distinct keys. -/
def fillBatch (n : Nat) : List (String × MValue) :=
  (List.range n).map (fun i => (akey i, MValue.int 0))

/-- The concrete batch refuting the 500-entry cap: 499 distinct literal
entries followed by an `Auditable` value, which expands into two keys. -/
def c1Batch : List (String × MValue) :=
  fillBatch 499 ++ [("k", MValue.auditable "n" "i")]

/-- An event whose metadata map already holds exactly 500 entries. -/
def fullEvent : Event := { zeroEvent with Metadata := fillBatch 500 }

/-- An event holding a metadata value that `encoding/json` cannot encode. -/
def badEvent : Event := { zeroEvent with Metadata := [("bad", MValue.nonEncodable)] }

/-- An HTTP request carrying neither a `User-Agent` nor an `X-Request-ID`
header (`Header.Get` returns the empty string for both). -/
def plainRequest : Request :=
  { RemoteAddr := "1.2.3.4", Method := "GET", URL := "/x", userAgent := "", requestID := "" }

/-- The end-to-end sample event of the repository's README. -/
def sampleEvent : Event :=
  { Group := "organization_1", Action := "user.login", ActionType := Create
    ActorName := "user@email.com", ActorID := "user_1", Location := "1.1.1.1"
    OccuredAt := 0, TargetName := "user@email.com", TargetID := "user_1", Metadata := [] }

/-- The wire payload of `sampleEvent`. -/
def sampleBody : Json :=
  .obj [ ("group", .str "organization_1"), ("action", .str "user.login")
       , ("action_type", .str "C"), ("actor_name", .str "user@email.com")
       , ("actor_id", .str "user_1"), ("location", .str "1.1.1.1")
       , ("occured_at", .str "0"), ("target_name", .str "user@email.com")
       , ("target_id", .str "user_1"), ("metadata", .obj []) ]

/-! ## Map lemmas -/

theorem mapGet_mapSet_self (m : Metadata) (k : String) (v : MValue) :
    mapGet (mapSet m k v) k = some v := by
  induction m with
  | nil => simp [mapSet, mapGet]
  | cons p rest ih =>
      obtain ⟨k', v'⟩ := p
      by_cases h : k' = k
      · simp [mapSet, mapGet, h]
      · simp [mapSet, mapGet, h, ih]

theorem mapGet_mapSet_ne (m : Metadata) (k k₀ : String) (v : MValue) (hne : k ≠ k₀) :
    mapGet (mapSet m k v) k₀ = mapGet m k₀ := by
  induction m with
  | nil => simp [mapSet, mapGet, hne]
  | cons p rest ih =>
      obtain ⟨k', v'⟩ := p
      by_cases h : k' = k
      · subst h
        simp [mapSet, mapGet, hne]
      · simp only [mapSet, if_neg h, mapGet]
        by_cases h₀ : k' = k₀ <;> simp [h₀, ih]

theorem mapSet_fresh (m : Metadata) (k : String) (v : MValue) (h : k ∉ keys m) :
    mapSet m k v = m ++ [(k, v)] := by
  induction m with
  | nil => simp [mapSet]
  | cons p rest ih =>
      obtain ⟨k', v'⟩ := p
      simp only [keys, List.map_cons, List.mem_cons, not_or] at h
      have h1 : ¬ k' = k := fun hx => h.1 hx.symm
      simp [mapSet, h1, ih (by simpa [keys] using h.2)]

theorem mapSet_length_le (m : Metadata) (k : String) (v : MValue) :
    (mapSet m k v).length ≤ m.length + 1 := by
  induction m with
  | nil => simp [mapSet]
  | cons p rest ih =>
      obtain ⟨k', v'⟩ := p
      by_cases h : k' = k
      · simp [mapSet, h]
      · simp only [mapSet, if_neg h, List.length_cons]
        omega

theorem mapSet_get_self (m : Metadata) (k : String) (v : MValue)
    (h : mapGet m k = some v) : mapSet m k v = m := by
  induction m with
  | nil => simp [mapGet] at h
  | cons p rest ih =>
      obtain ⟨k', v'⟩ := p
      by_cases hk : k' = k
      · subst hk
        simp [mapGet] at h
        simp [mapSet, h]
      · simp only [mapGet, if_neg hk] at h
        simp [mapSet, hk, ih h]

theorem mapGet_of_nodup (g : Metadata) (p : String × MValue)
    (hnd : (keys g).Nodup) (hmem : p ∈ g) : mapGet g p.1 = some p.2 := by
  induction g with
  | nil => simp at hmem
  | cons q rest ih =>
      obtain ⟨k', v'⟩ := q
      simp only [keys, List.map_cons, List.nodup_cons] at hnd
      rcases List.mem_cons.mp hmem with h | h
      · subst h
        simp [mapGet]
      · have hne : k' ≠ p.1 := by
          intro hx
          exact hnd.1 (hx ▸ List.mem_map_of_mem Prod.fst h)
        simp [mapGet, hne, ih (by simpa [keys] using hnd.2) h]

/-! ## Merge lemmas -/

theorem mergeGlobals_nil (m : Metadata) : mergeGlobals m [] = m := rfl

theorem mergeGlobals_cons (m : Metadata) (k : String) (v : MValue) (g : Metadata) :
    mergeGlobals m ((k, v) :: g) = mergeGlobals (mapSet m k v) g := rfl

theorem mapGet_mergeGlobals_not_mem (g m : Metadata) (k : String) (h : k ∉ keys g) :
    mapGet (mergeGlobals m g) k = mapGet m k := by
  induction g generalizing m with
  | nil => rfl
  | cons q rest ih =>
      obtain ⟨k', v'⟩ := q
      simp only [keys, List.map_cons, List.mem_cons, not_or] at h
      rw [mergeGlobals_cons, ih _ (by simpa [keys] using h.2),
        mapGet_mapSet_ne _ _ _ _ (fun hx => h.1 hx.symm)]

theorem mapGet_mergeGlobals_mem (g m : Metadata) (k : String)
    (hnd : (keys g).Nodup) (h : k ∈ keys g) :
    mapGet (mergeGlobals m g) k = mapGet g k := by
  induction g generalizing m with
  | nil => simp [keys] at h
  | cons q rest ih =>
      obtain ⟨k', v'⟩ := q
      simp only [keys, List.map_cons, List.nodup_cons] at hnd
      by_cases hk : k' = k
      · subst hk
        have hnot : k' ∉ keys rest := by simpa [keys] using hnd.1
        rw [mergeGlobals_cons, mapGet_mergeGlobals_not_mem _ _ _ hnot,
          mapGet_mapSet_self]
        simp [mapGet]
      · have hmem : k ∈ keys rest := by
          rcases List.mem_cons.mp h with hx | hx
          · exact absurd hx.symm hk
          · exact hx
        rw [mergeGlobals_cons, ih _ (by simpa [keys] using hnd.2) hmem]
        simp [mapGet, hk]

theorem mergeGlobals_already (g m : Metadata)
    (h : ∀ p ∈ g, mapGet m p.1 = some p.2) : mergeGlobals m g = m := by
  induction g with
  | nil => rfl
  | cons q rest ih =>
      rw [mergeGlobals_cons, mapSet_get_self _ _ _ (h q (List.mem_cons_self q rest))]
      exact ih (fun p hp => h p (List.mem_cons_of_mem q hp))

/-! ## Batch (`AddMetadata`) lemmas -/

theorem addMetadata_error_iff (m : Metadata) (k : String) (v : MValue) (err : String) :
    addMetadata m k v = .error err ↔ 500 ≤ m.length ∧ err = capacityError := by
  unfold addMetadata
  by_cases h : m.length ≥ 500
  · simp only [if_pos h]
    constructor
    · intro hx
      exact ⟨h, (Except.error.injEq _ _).mp hx |>.symm⟩
    · intro hx
      rw [hx.2]
  · simp only [if_neg h]
    cases v <;> simp <;> omega

theorem addMetadata_ok_length (m m' : Metadata) (k : String) (v : MValue)
    (h : addMetadata m k v = .ok m') : m.length < 500 ∧ m'.length ≤ m.length + 2 := by
  unfold addMetadata at h
  by_cases hl : m.length ≥ 500
  · simp [if_pos hl] at h
  · refine ⟨by omega, ?_⟩
    simp only [if_neg hl] at h
    cases v with
    | auditable name id =>
        simp only [Except.ok.injEq] at h
        calc m'.length ≤ (mapSet m (k ++ "_name") (.str name)).length + 1 := by
              rw [← h]; exact mapSet_length_le _ _ _
          _ ≤ m.length + 2 := by
              have := mapSet_length_le m (k ++ "_name") (MValue.str name)
              omega
    | str s =>
        simp only [Except.ok.injEq] at h
        subst h
        have := mapSet_length_le m k (MValue.str s)
        omega
    | int n =>
        simp only [Except.ok.injEq] at h
        subst h
        have := mapSet_length_le m k (MValue.int n)
        omega
    | nonEncodable =>
        simp only [Except.ok.injEq] at h
        subst h
        have := mapSet_length_le m k MValue.nonEncodable
        omega

theorem addMetadata_ok_of_lt (m : Metadata) (k : String) (v : MValue)
    (hl : m.length < 500) (hv : isLiteral v = true) :
    addMetadata m k v = .ok (mapSet m k v) := by
  unfold addMetadata
  rw [if_neg (by omega)]
  cases v <;> simp_all [isLiteral]

theorem AddMetadataM_append (m : Metadata) (l1 l2 : List (String × MValue))
    (h : (AddMetadataM m l1).2 = none) :
    AddMetadataM m (l1 ++ l2) = AddMetadataM (AddMetadataM m l1).1 l2 := by
  induction l1 generalizing m with
  | nil => rfl
  | cons q rest ih =>
      obtain ⟨k, v⟩ := q
      cases haddr : addMetadata m k v with
      | error err => simp [AddMetadataM, haddr] at h
      | ok m' =>
          simp only [List.cons_append, AddMetadataM, haddr] at h ⊢
          exact ih m' h

theorem AddMetadataM_fresh (l : List (String × MValue)) (m : Metadata)
    (hlen : m.length + l.length ≤ 500)
    (hnd : (l.map Prod.fst).Nodup)
    (hdisj : ∀ p ∈ l, p.1 ∉ keys m)
    (hlit : ∀ p ∈ l, isLiteral p.2 = true) :
    AddMetadataM m l = (m ++ l, none) := by
  induction l generalizing m with
  | nil => simp [AddMetadataM]
  | cons q rest ih =>
      obtain ⟨k, v⟩ := q
      have hmem : (k, v) ∈ (k, v) :: rest := List.mem_cons_self _ _
      have hok : addMetadata m k v = .ok (mapSet m k v) :=
        addMetadata_ok_of_lt m k v (by simp at hlen; omega) (hlit _ hmem)
      have hfresh : mapSet m k v = m ++ [(k, v)] :=
        mapSet_fresh m k v (hdisj _ hmem)
      simp only [List.map_cons, List.nodup_cons] at hnd
      have hstep : AddMetadataM (m ++ [(k, v)]) rest = (m ++ [(k, v)] ++ rest, none) := by
        refine ih (m ++ [(k, v)]) (by simp at hlen ⊢; omega) hnd.2 ?_ ?_
        · intro p hp
          simp only [keys, List.map_append, List.mem_append, not_or]
          refine ⟨hdisj p (List.mem_cons_of_mem _ hp), ?_⟩
          intro hx
          simp only [List.map_cons, List.map_nil, List.mem_singleton] at hx
          exact hnd.1 (hx ▸ List.mem_map_of_mem Prod.fst hp)
        · exact fun p hp => hlit p (List.mem_cons_of_mem _ hp)
      simp only [AddMetadataM, hok, hfresh, hstep]
      simp

/-! ## String-key disjointness lemmas -/

theorem append_ne_left (k s : String) (hs : 0 < s.length) : k ++ s ≠ k := by
  intro h
  have hlen := congrArg String.length h
  rw [String.length_append] at hlen
  omega

theorem append_name_ne_append_id (k : String) : k ++ "_name" ≠ k ++ "_id" := by
  intro h
  have hlen := congrArg String.length h
  rw [String.length_append, String.length_append] at hlen
  have h1 : ("_name" : String).length = 5 := rfl
  have h2 : ("_id" : String).length = 3 := rfl
  omega

theorem akey_length (i : Nat) : (akey i).length = i := by
  simp [akey, String.length_mk]

theorem not_mem_map_akey (n : Nat) (s : String) (hs : akey s.length ≠ s) :
    s ∉ (List.range n).map akey := by
  intro hmem
  obtain ⟨i, _, hi⟩ := List.mem_map.mp hmem
  have hil : i = s.length := by rw [← hi, akey_length]
  exact hs (hil ▸ hi)

theorem fillBatch_length (n : Nat) : (fillBatch n).length = n := by
  simp [fillBatch]

theorem fillBatch_keys (n : Nat) :
    (fillBatch n).map Prod.fst = (List.range n).map akey := by
  simp [fillBatch, List.map_map]

theorem fillBatch_keys_nodup (n : Nat) : ((fillBatch n).map Prod.fst).Nodup := by
  rw [fillBatch_keys]
  refine List.Nodup.map ?_ (List.nodup_range n)
  intro i j h
  have hi := akey_length i
  rw [h, akey_length] at hi
  exact hi.symm

theorem fillBatch_literal (n : Nat) : ∀ p ∈ fillBatch n, isLiteral p.2 = true := by
  intro p hp
  obtain ⟨i, _, hi⟩ := List.mem_map.mp hp
  rw [← hi]
  rfl

theorem fillBatch_succ (n : Nat) :
    fillBatch (n + 1) = fillBatch n ++ [(akey n, MValue.int 0)] := by
  simp [fillBatch, List.range_succ]

theorem fillBatch_run (n : Nat) (h : n ≤ 500) :
    AddMetadataM [] (fillBatch n) = (fillBatch n, none) := by
  have hres := AddMetadataM_fresh (fillBatch n) []
    (by simp [fillBatch_length]; omega)
    (fillBatch_keys_nodup n)
    (by simp [keys])
    (fillBatch_literal n)
  simpa using hres

theorem addMetadata_full_error (k : String) (v : MValue) :
    addMetadata (fillBatch 500) k v = .error capacityError := by
  unfold addMetadata
  rw [if_pos (by simp [fillBatch_length])]

theorem addMetadata_auditable_fresh (m : Metadata) (k name id : String)
    (hlen : m.length < 500)
    (hname : (k ++ "_name") ∉ keys m) (hid : (k ++ "_id") ∉ keys m) :
    addMetadata m k (.auditable name id) =
      .ok (m ++ [(k ++ "_name", MValue.str name), (k ++ "_id", MValue.str id)]) := by
  unfold addMetadata
  rw [if_neg (by omega)]
  show Except.ok (mapSet (mapSet m (k ++ "_name") (MValue.str name)) (k ++ "_id") (MValue.str id)) = _
  rw [mapSet_fresh _ _ _ hname]
  rw [mapSet_fresh _ _ _ (by
    rw [keys, List.map_append]
    simp only [List.mem_append, List.map_cons, List.map_nil, List.mem_singleton, not_or]
    exact ⟨hid, fun hx => append_name_ne_append_id k hx.symm⟩)]
  simp

/-! ## `Publish` lemmas -/

theorem publish_fst (g : Metadata) (transport : Json → Option String) (e : Event) :
    (Publish g transport e).1 = { e with Metadata := mergeGlobals e.Metadata g } := by
  simp only [Publish]
  cases marshalEvent { e with Metadata := mergeGlobals e.Metadata g } <;> rfl

theorem marshalEvent_error (err : String) (e : Event)
    (h : marshalEvent e = .error err) : err = serializationError := by
  unfold marshalEvent at h
  cases hm : encodeMetadata e.Metadata with
  | none =>
      rw [hm] at h
      exact ((Except.error.injEq _ _).mp h).symm
  | some md =>
      rw [hm] at h
      simp at h

/-! ## Capacity-bound lemmas -/

theorem addMetadataM_bound (batch : List (String × MValue)) (m : Metadata)
    (h : m.length ≤ 501) :
    (AddMetadataM m batch).1.length ≤ 501 ∧
      ((AddMetadataM m batch).2.isSome = true → 500 ≤ (AddMetadataM m batch).1.length) := by
  induction batch generalizing m with
  | nil => exact ⟨h, by simp [AddMetadataM]⟩
  | cons q rest ih =>
      obtain ⟨k, v⟩ := q
      cases haddr : addMetadata m k v with
      | error err =>
          have hfull := (addMetadata_error_iff m k v err).mp haddr
          simp only [AddMetadataM, haddr]
          exact ⟨h, fun _ => hfull.1⟩
      | ok m' =>
          have hl := addMetadata_ok_length m m' k v haddr
          simp only [AddMetadataM, haddr]
          exact ih m' (by omega)

theorem c1Batch_run :
    AddMetadataM [] c1Batch =
      (fillBatch 499 ++ [("k" ++ "_name", MValue.str "n"), ("k" ++ "_id", MValue.str "i")],
        none) := by
  have h499 : AddMetadataM [] (fillBatch 499) = (fillBatch 499, none) :=
    fillBatch_run 499 (by omega)
  have hadd : addMetadata (fillBatch 499) "k" (.auditable "n" "i") =
      .ok (fillBatch 499 ++ [("k" ++ "_name", MValue.str "n"), ("k" ++ "_id", MValue.str "i")]) := by
    refine addMetadata_auditable_fresh (fillBatch 499) "k" "n" "i"
      (by simp [fillBatch_length]) ?_ ?_
    · rw [keys, fillBatch_keys]
      exact not_mem_map_akey _ _ (by decide)
    · rw [keys, fillBatch_keys]
      exact not_mem_map_akey _ _ (by decide)
  rw [c1Batch, AddMetadataM_append _ _ _ (by rw [h499]), h499]
  simp [AddMetadataM, hadd]

theorem fillBatch501_fails :
    (AddMetadataM [] (fillBatch 501)).2 = some capacityError ∧
      (AddMetadataM [] (fillBatch 501)).1 = fillBatch 500 := by
  have h500 : AddMetadataM [] (fillBatch 500) = (fillBatch 500, none) :=
    fillBatch_run 500 (by omega)
  have hsplit : fillBatch 501 = fillBatch 500 ++ [(akey 500, MValue.int 0)] :=
    fillBatch_succ 500
  rw [hsplit, AddMetadataM_append _ _ _ (by rw [h500]), h500]
  simp [AddMetadataM, addMetadata_full_error]

/-! ## Claim theorems -/

/-- C1 counterexample: starting from a fresh event, one `AddMetadata` batch
of 499 distinct literal entries followed by an `Auditable` value succeeds
without a capacity error and leaves the metadata with 501 keys, because the
500-cap check runs before the two-key expansion.  This refutes both "the
metadata key count never exceeds 500" and "the addition at the boundary
fails with the capacity error". -/
theorem c1_counterexample :
    ((NewEvent "user.login" Create none 0).AddMetadata c1Batch).1.Metadata.length = 501 ∧
    ((NewEvent "user.login" Create none 0).AddMetadata c1Batch).2 = none := by
  have hm : (NewEvent "user.login" Create none 0).Metadata = [] := rfl
  simp only [Event.AddMetadata, hm, c1Batch_run]
  simp [fillBatch_length]

/-- C1 (amended): for every event whose metadata map holds at most 501
entries and every `AddMetadata` batch, the key count after the call is
still at most 501, and whenever the call reports the capacity error the
final count is at least 500 (hence exactly 500 or 501).  The count can
reach 501 — not 500 — exactly when an `Auditable` value is added at count
499, since the cap check precedes the two-key expansion. -/
theorem c1_metadata_bound (e : Event) (batch : List (String × MValue))
    (h : e.Metadata.length ≤ 501) :
    ((e.AddMetadata batch).1.Metadata.length ≤ 501) ∧
    ((e.AddMetadata batch).2.isSome = true →
      500 ≤ (e.AddMetadata batch).1.Metadata.length) := by
  simpa [Event.AddMetadata] using addMetadataM_bound batch e.Metadata h

/-- C1 witness: the amended bound applied to a concrete one-entry batch on
a fresh event. -/
theorem c1_metadata_bound_witness :
    ((zeroEvent.AddMetadata [("a", MValue.int 0)]).1.Metadata.length ≤ 501) ∧
    ((zeroEvent.AddMetadata [("a", MValue.int 0)]).2.isSome = true →
      500 ≤ (zeroEvent.AddMetadata [("a", MValue.int 0)]).1.Metadata.length) :=
  c1_metadata_bound zeroEvent [("a", MValue.int 0)] (by decide)

/-- C2 counterexample: after storing the literal value `"old"` at key `"k"`
and then adding an `Auditable` value under the same key `"k"`, the metadata
still contains the literal entry at `"k"` — the expansion adds `k_name` and
`k_id` but does not remove the literal binding, refuting "replaces any
literal value previously stored at key `k`". -/
theorem c2_counterexample :
    (AddMetadataM (AddMetadataM [] [("k", MValue.str "old")]).1
        [("k", MValue.auditable "n" "i")]).1 =
      [("k", MValue.str "old"), ("k_name", MValue.str "n"), ("k_id", MValue.str "i")] := by
  decide

/-- C2 (amended): adding an `Auditable` value under key `k` (below the
capacity cap) succeeds and binds exactly `k_name` to the value's display
name and `k_id` to its stable ID, while leaving whatever was previously
stored at the literal key `k` unchanged (in particular, a pre-existing
literal entry at `k` is NOT removed; if `k` was absent it stays absent). -/
theorem c2_auditable_expansion (m : Metadata) (k name id : String)
    (hlen : m.length < 500) :
    ∃ m', addMetadata m k (.auditable name id) = .ok m' ∧
      mapGet m' (k ++ "_name") = some (.str name) ∧
      mapGet m' (k ++ "_id") = some (.str id) ∧
      mapGet m' k = mapGet m k := by
  refine ⟨mapSet (mapSet m (k ++ "_name") (.str name)) (k ++ "_id") (.str id),
    ?_, ?_, ?_, ?_⟩
  · unfold addMetadata
    rw [if_neg (by omega)]
  · rw [mapGet_mapSet_ne _ _ _ _ (fun hx => append_name_ne_append_id k hx.symm),
      mapGet_mapSet_self]
  · rw [mapGet_mapSet_self]
  · rw [mapGet_mapSet_ne _ _ _ _ (append_ne_left k "_id" (by decide)),
      mapGet_mapSet_ne _ _ _ _ (append_ne_left k "_name" (by decide))]

/-- C2 witness: the amended expansion applied to a concrete map holding a
literal at key `"k"`. -/
theorem c2_auditable_expansion_witness :
    ∃ m', addMetadata [("k", MValue.str "old")] "k" (.auditable "n" "i") = .ok m' ∧
      mapGet m' ("k" ++ "_name") = some (.str "n") ∧
      mapGet m' ("k" ++ "_id") = some (.str "i") ∧
      mapGet m' "k" = mapGet [("k", MValue.str "old")] "k" :=
  c2_auditable_expansion [("k", MValue.str "old")] "k" "n" "i" (by decide)

/-- C3: for every binding `(k, v)` of the process-wide default (global)
metadata, the event published by `Publish` carries `v` at key `k`: the
global default's value overwrites any per-event value at the same key
(defaults-overwrite-per-event, the resolution fixed by the spec). -/
theorem c3_publish_globals (g : Metadata) (transport : Json → Option String)
    (e : Event) (k : String) (v : MValue)
    (hnd : (keys g).Nodup) (hkv : (k, v) ∈ g) :
    mapGet (Publish g transport e).1.Metadata k = some v := by
  rw [publish_fst]
  show mapGet (mergeGlobals e.Metadata g) k = some v
  rw [mapGet_mergeGlobals_mem g e.Metadata k hnd (List.mem_map_of_mem Prod.fst hkv)]
  exact mapGet_of_nodup g (k, v) hnd hkv

/-- C3 witness: a global default overwrites a colliding per-event entry. -/
theorem c3_publish_globals_witness :
    mapGet (Publish [("g1", MValue.str "v")] (fun _ => none)
        { zeroEvent with Metadata := [("g1", MValue.str "per")] }).1.Metadata "g1" =
      some (MValue.str "v") :=
  c3_publish_globals [("g1", MValue.str "v")] (fun _ => none)
    { zeroEvent with Metadata := [("g1", MValue.str "per")] } "g1" (MValue.str "v")
    (by decide) (by decide)

/-- C4: when a batch `AddMetadata` call hits the capacity error at some
entry, the call fails synchronously with that error, the entries already
applied earlier in the same call remain applied (the resulting metadata is
exactly the state after the successful prefix), and the failing entry and
all remaining entries of the batch are not applied. -/
theorem c4_batch_abort (e : Event) (done : List (String × MValue)) (k : String)
    (v : MValue) (rest : List (String × MValue)) (err : String)
    (h1 : (AddMetadataM e.Metadata done).2 = none)
    (h2 : addMetadata (AddMetadataM e.Metadata done).1 k v = .error err) :
    e.AddMetadata (done ++ (k, v) :: rest) =
      ({ e with Metadata := (AddMetadataM e.Metadata done).1 }, some err) := by
  simp only [Event.AddMetadata]
  rw [AddMetadataM_append _ _ _ h1]
  simp [AddMetadataM, h2]

set_option maxRecDepth 8000 in
/-- C4 witness: on an event whose metadata already holds 500 entries, a
two-entry batch fails immediately with the capacity error and applies
nothing. -/
theorem c4_batch_abort_witness :
    fullEvent.AddMetadata ([] ++ ("x", MValue.int 0) :: [("y", MValue.int 1)]) =
      ({ fullEvent with Metadata := (AddMetadataM fullEvent.Metadata []).1 },
        some capacityError) :=
  c4_batch_abort fullEvent [] "x" (MValue.int 0) [("y", MValue.int 1)] capacityError
    rfl (addMetadata_full_error "x" (MValue.int 0))

/-- C5: when serializing the (merged) event fails, `Publish` returns the
serialization error and never consults the transport (its result is the
same for any two transports); when serialization yields a body, `Publish`
returns the transport's result on that body unchanged; `Publish` succeeds
exactly when serialization succeeds and the transport succeeds on the
serialized body. -/
theorem c5_publish_error_propagation (g : Metadata) (e : Event)
    (tr tr' : Json → Option String) :
    (∀ err, publishBody g e = .error err →
        (Publish g tr e).2 = some serializationError ∧
          Publish g tr e = Publish g tr' e) ∧
    (∀ body, publishBody g e = .ok body → (Publish g tr e).2 = tr body) ∧
    ((Publish g tr e).2 = none ↔
        ∃ body, publishBody g e = .ok body ∧ tr body = none) := by
  simp only [Publish, publishBody]
  cases hm : marshalEvent { e with Metadata := mergeGlobals e.Metadata g } with
  | error err =>
      have herr : err = serializationError := marshalEvent_error err _ hm
      subst herr
      simp
  | ok body => simp

/-- C5 witness: on an event holding a non-encodable metadata value,
`Publish` reports the serialization error and its result does not depend
on the transport. -/
theorem c5_publish_error_propagation_witness :
    (Publish [] (fun _ => some "boom") badEvent).2 = some serializationError ∧
      Publish [] (fun _ => some "boom") badEvent = Publish [] (fun _ => none) badEvent :=
  (c5_publish_error_propagation [] badEvent (fun _ => some "boom") (fun _ => none)).1
    serializationError rfl

/-- C6: `NewEventWithHTTP` overwrites the event's location with the
request's origin address and seeds the metadata with `http_method` and
`request_url`; `user_agent` and `request_id` are bound exactly when the
corresponding header is non-empty, and with neither header present the
metadata holds only the two keys `http_method` and `request_url`. -/
theorem c6_new_event_with_http (action actionType : String) (r : Request)
    (hostname : Option String) (now : Nat) :
    (NewEventWithHTTP action actionType r hostname now).Location = r.RemoteAddr ∧
    mapGet (NewEventWithHTTP action actionType r hostname now).Metadata "http_method" =
      some (.str r.Method) ∧
    mapGet (NewEventWithHTTP action actionType r hostname now).Metadata "request_url" =
      some (.str r.URL) ∧
    mapGet (NewEventWithHTTP action actionType r hostname now).Metadata "user_agent" =
      (if r.userAgent = "" then none else some (.str r.userAgent)) ∧
    mapGet (NewEventWithHTTP action actionType r hostname now).Metadata "request_id" =
      (if r.requestID = "" then none else some (.str r.requestID)) ∧
    (r.userAgent = "" → r.requestID = "" →
      (NewEventWithHTTP action actionType r hostname now).Metadata =
        [("http_method", .str r.Method), ("request_url", .str r.URL)]) := by
  by_cases hua : r.userAgent = "" <;> by_cases hrid : r.requestID = "" <;>
    simp [NewEventWithHTTP, NewEvent, Event.SetLocation, Event.AddMetadata,
      AddMetadataM, addMetadata, mapSet, mapGet, hua, hrid]

/-- C6 witness: a request with neither header yields metadata containing
only `http_method` and `request_url`. -/
theorem c6_new_event_with_http_witness :
    (NewEventWithHTTP "user.login" Create plainRequest none 0).Metadata =
      [("http_method", .str "GET"), ("request_url", .str "/x")] :=
  (c6_new_event_with_http "user.login" Create plainRequest none 0).2.2.2.2.2 rfl rfl

/-- C7: `SetActor` sets exactly the actor-name and actor-id fields from the
`Auditable` value's two accessors, leaves every other field unchanged, and
is idempotent: applying it twice with the same value equals applying it
once. -/
theorem c7_set_actor (e : Event) (d : Auditable) :
    (e.SetActor d).ActorName = d.ToAuditableName ∧
    (e.SetActor d).ActorID = d.ToAuditableID ∧
    (e.SetActor d).SetActor d = e.SetActor d ∧
    (e.SetActor d).Group = e.Group ∧
    (e.SetActor d).Action = e.Action ∧
    (e.SetActor d).ActionType = e.ActionType ∧
    (e.SetActor d).Location = e.Location ∧
    (e.SetActor d).OccuredAt = e.OccuredAt ∧
    (e.SetActor d).TargetName = e.TargetName ∧
    (e.SetActor d).TargetID = e.TargetID ∧
    (e.SetActor d).Metadata = e.Metadata :=
  ⟨rfl, rfl, rfl, rfl, rfl, rfl, rfl, rfl, rfl, rfl, rfl⟩

/-- C8: the serialized wire record of an event is a JSON object whose
field names are exactly `group`, `action`, `action_type`, `actor_name`,
`actor_id`, `location`, `occured_at` (the intentionally non-standard
spelling), `target_name`, `target_id` and `metadata`, and whose
`action_type` value is the event's action kind — one of the four letters
`"C"`, `"R"`, `"U"`, `"D"`. -/
theorem c8_wire_format (e : Event) (body : Json)
    (hmar : marshalEvent e = .ok body)
    (hat : e.ActionType = Create ∨ e.ActionType = Read ∨ e.ActionType = Update ∨
      e.ActionType = Delete) :
    body.fieldNames = ["group", "action", "action_type", "actor_name", "actor_id",
      "location", "occured_at", "target_name", "target_id", "metadata"] ∧
    body.getField "action_type" = some (.str e.ActionType) ∧
    (body.getField "action_type" = some (.str "C") ∨
     body.getField "action_type" = some (.str "R") ∨
     body.getField "action_type" = some (.str "U") ∨
     body.getField "action_type" = some (.str "D")) := by
  unfold marshalEvent at hmar
  cases hm : encodeMetadata e.Metadata with
  | none =>
      rw [hm] at hmar
      simp at hmar
  | some md =>
      rw [hm] at hmar
      simp only [Except.ok.injEq] at hmar
      subst hmar
      refine ⟨rfl, by simp [Json.getField, jsonGet], ?_⟩
      rcases hat with h | h | h | h <;>
        simp [Json.getField, jsonGet, h, Create, Read, Update, Delete]

/-- C8 witness: the README's end-to-end sample event serializes to the
ten-field object with `action_type = "C"`. -/
theorem c8_wire_format_witness :
    sampleBody.fieldNames = ["group", "action", "action_type", "actor_name", "actor_id",
      "location", "occured_at", "target_name", "target_id", "metadata"] ∧
    sampleBody.getField "action_type" = some (.str sampleEvent.ActionType) ∧
    (sampleBody.getField "action_type" = some (.str "C") ∨
     sampleBody.getField "action_type" = some (.str "R") ∨
     sampleBody.getField "action_type" = some (.str "U") ∨
     sampleBody.getField "action_type" = some (.str "D")) :=
  c8_wire_format sampleEvent sampleBody rfl (Or.inl rfl)

/-- C9: `Publish` merges the global default metadata into the caller's
event itself (the metadata map is shared between the receiver copy and the
caller's value): after the call, every global binding is present in the
event for any transport — including failing transports and events whose
serialization fails, since the merge precedes serialization — and a second
`Publish` of the resulting event leaves it unchanged, re-serializing the
already-merged entries. -/
theorem c9_publish_mutates_event (g : Metadata) (tr tr' : Json → Option String)
    (e : Event) (hnd : (keys g).Nodup) :
    (∀ p ∈ g, mapGet (Publish g tr e).1.Metadata p.1 = some p.2) ∧
    (Publish g tr' (Publish g tr e).1).1 = (Publish g tr e).1 := by
  have h1 : ∀ p ∈ g, mapGet (Publish g tr e).1.Metadata p.1 = some p.2 := by
    intro p hp
    rw [publish_fst]
    show mapGet (mergeGlobals e.Metadata g) p.1 = some p.2
    rw [mapGet_mergeGlobals_mem g e.Metadata p.1 hnd (List.mem_map_of_mem Prod.fst hp)]
    exact mapGet_of_nodup g p hnd hp
  refine ⟨h1, ?_⟩
  rw [publish_fst g tr' (Publish g tr e).1]
  rw [mergeGlobals_already g (Publish g tr e).1.Metadata h1]

/-- C9 witness: the in-place merge and the idempotence of a second publish
on a concrete global map, a failing and a succeeding transport. -/
theorem c9_publish_mutates_event_witness :
    (∀ p ∈ ([("g1", MValue.str "v")] : Metadata),
        mapGet (Publish [("g1", MValue.str "v")] (fun _ => none) zeroEvent).1.Metadata p.1 =
          some p.2) ∧
    (Publish [("g1", MValue.str "v")] (fun _ => some "boom")
        (Publish [("g1", MValue.str "v")] (fun _ => none) zeroEvent).1).1 =
      (Publish [("g1", MValue.str "v")] (fun _ => none) zeroEvent).1 :=
  c9_publish_mutates_event [("g1", MValue.str "v")] (fun _ => none) (fun _ => some "boom")
    zeroEvent (by decide)

/-- C10: whenever the initial metadata batch of `NewEventWithMetadata`
fails, the function returns the zero-valued event `Event{}` (every string
field empty, zero timestamp, no metadata) together with the error, instead
of the partially-populated event whose prefix entries were applied. -/
theorem c10_zero_event_on_error (action actionType : String)
    (metadata : List (String × MValue)) (hostname : Option String) (now : Nat)
    (err : String) (h : (AddMetadataM [] metadata).2 = some err) :
    NewEventWithMetadata action actionType metadata hostname now = (zeroEvent, some err) := by
  simp [NewEventWithMetadata, NewEvent, Event.AddMetadata, h]

set_option maxRecDepth 8000 in
/-- C10 witness: a 501-entry batch of distinct literal keys overflows the
capacity mid-batch, and `NewEventWithMetadata` returns the zero event with
the capacity error. -/
theorem c10_zero_event_on_error_witness :
    NewEventWithMetadata "user.login" Create (fillBatch 501) none 0 =
      (zeroEvent, some capacityError) :=
  c10_zero_event_on_error "user.login" Create (fillBatch 501) none 0 capacityError
    fillBatch501_fails.1

end Auditlog
